import Mathlib

/-!
Verification of the CSV-ingestion core of the AnkiDict repository
(file csv_parser.py, class CSVParser), against its natural-language
specification.

The parser state and its two ingestion passes are shallowly embedded:
Python dicts become association lists keyed by strings (Python dicts
preserve insertion order, association lists do too), Python sets become
duplicate-free lists with insert-at-end semantics, and the string
helpers used by the source (strip, split, substring containment) are
embedded as structurally recursive functions on the underlying
character lists so that every definition evaluates by kernel reduction.
-/

namespace AnkiDict

/-- Python str.strip: drop whitespace from both ends. -/
def strip (s : String) : String :=
  String.mk (((s.data.dropWhile Char.isWhitespace).reverse.dropWhile Char.isWhitespace).reverse)

/-- Python str.split(sep) for a one-character separator: split into the
(always non-empty) list of groups between occurrences of the separator. -/
def splitList (sep : Char) : List Char → List (List Char)
  | [] => [[]]
  | c :: rest =>
    if c = sep then [] :: splitList sep rest
    else
      match splitList sep rest with
      | [] => [[c]]
      | g :: gs => (c :: g) :: gs

/-- String-level wrapper of splitList. -/
def splitStr (sep : Char) (s : String) : List String :=
  (splitList sep s.data).map String.mk

/-- Python str.split(sep, 1): split at the first occurrence of the
separator, returning none when the separator does not occur (so isSome
also models the Python test sep in s). -/
def splitOnce (sep : Char) : List Char → Option (List Char × List Char)
  | [] => none
  | c :: rest =>
    if c = sep then some ([], rest)
    else
      match splitOnce sep rest with
      | none => none
      | some (a, b) => some (c :: a, b)

/-- Whether the first list is a prefix of the second (Bool-valued). -/
def startsWithL : List Char → List Char → Bool
  | [], _ => true
  | _ :: _, [] => false
  | a :: n, b :: h => a = b && startsWithL n h

/-- Whether the first list occurs contiguously inside the second. -/
def occursIn (needle : List Char) : List Char → Bool
  | [] => needle.isEmpty
  | c :: rest => startsWithL needle (c :: rest) || occursIn needle rest

/-- Python substring test: needle in hay. -/
def substrOf (needle hay : String) : Bool :=
  occursIn needle.data hay.data

/-- Membership test on a list of strings (Python: x in someSet). -/
def hasStr (l : List String) (x : String) : Bool :=
  match l with
  | [] => false
  | y :: t => if y = x then true else hasStr t x

/-- Python set.add modelled on a duplicate-free list: append when absent. -/
def listAdd (l : List String) (x : String) : List String :=
  if hasStr l x then l else l ++ [x]

/-- Python dict lookup d.get(k) on an association list. -/
def alookup {α : Type} (m : List (String × α)) (k : String) : Option α :=
  match m with
  | [] => none
  | (k1, v) :: rest => if k1 = k then some v else alookup rest k

/-- Python dict assignment d[k] = v: replace in place, or append. -/
def aset {α : Type} (m : List (String × α)) (k : String) (v : α) : List (String × α) :=
  match m with
  | [] => [(k, v)]
  | (k1, v1) :: rest => if k1 = k then (k1, v) :: rest else (k1, v1) :: aset rest k v

/-- defaultdict(set): d[k].add(v). -/
def msetAdd (m : List (String × List String)) (k v : String) : List (String × List String) :=
  match m with
  | [] => [(k, [v])]
  | (k1, l) :: rest => if k1 = k then (k1, listAdd l v) :: rest else (k1, l) :: msetAdd rest k v

/-- defaultdict(set) read access d.get(k, set()). -/
def msetGet (m : List (String × List String)) (k : String) : List String :=
  match alookup m k with
  | none => []
  | some l => l

/-- defaultdict(list): d[k].extend(vs) (creates the key even for vs = []). -/
def mextend (m : List (String × List String)) (k : String) (vs : List String) : List (String × List String) :=
  match m with
  | [] => [(k, vs)]
  | (k1, l) :: rest => if k1 = k then (k1, l ++ vs) :: rest else (k1, l) :: mextend rest k vs

/-- Drop empty strings from a list (the comprehension filters "if x.strip()"). -/
def dropEmpty (l : List String) : List String :=
  match l with
  | [] => []
  | x :: t => if x = "" then dropEmpty t else x :: dropEmpty t

/-- Python list(word): the word string as a list of one-character strings. -/
def strChars (w : String) : List String :=
  w.data.map (fun c => String.mk [c])

/-- The per-word record stored in CSVParser.words_data. The source stores
a Python dict whose translations key is set only by parse_second_csv,
hence an Option field. -/
structure WordData where
  pronunciation : String
  characters : List String
  all_characters : List String
  translations : Option (List (String × List String))
deriving DecidableEq

/-- The mutable state of a CSVParser instance (its __init__ fields). -/
structure ParserState where
  words_data : List (String × WordData)
  pronunciations : List (String × String)
  char_to_words : List (String × List String)
  pron_to_chars : List (String × List String)
  char_homophones : List (String × List String)
  seen_words : List String
deriving DecidableEq

/-- A freshly constructed CSVParser(). -/
def initState : ParserState := ⟨[], [], [], [], [], []⟩

/-- CSVParser._parse_translations: split the blob on the bar character,
strip each part; for parts containing a colon, split once at the first
colon, strip both halves, and when both are non-empty extend the
category's gloss list with the non-empty stripped comma-separated
values. -/
def parseTranslations (translation_str : String) : List (String × List String) :=
  let parts := (splitStr '|' translation_str).map strip
  parts.foldl
    (fun tr part =>
      match splitOnce ':' part.data with
      | none => tr
      | some (tp, mn) =>
        let word_type := strip (String.mk tp)
        let meaning := strip (String.mk mn)
        if word_type = "" ∨ meaning = "" then tr
        else
          let meanings := dropEmpty ((splitStr ',' meaning).map strip)
          mextend tr word_type meanings)
    []

/-- Columns 2..10 of a source-A row: stripped, empties removed. -/
def rowChars (row : List String) : List String :=
  dropEmpty (((row.drop 2).take 9).map strip)

/-- Columns 11..15 of a source-A row: stripped, empties removed. -/
def rowWordGroups (row : List String) : List String :=
  dropEmpty (((row.drop 11).take 5).map strip)

/-- One word-group cell split on commas, stripped, empties removed. -/
def splitWords (ws : String) : List String :=
  dropEmpty ((splitStr ',' ws).map strip)

/-- The homophone double loop of parse_first_csv, inner loop: for a fixed
char, add every other_char of the row distinct from it to its set. -/
def addHomInner (m : List (String × List String)) (c : String) (others : List String) : List (String × List String) :=
  others.foldl (fun m1 oc => if oc ≠ c then msetAdd m1 c oc else m1) m

/-- The homophone double loop of parse_first_csv, outer loop. -/
def addHomAll (m : List (String × List String)) (chars : List String) : List (String × List String) :=
  chars.foldl (fun m1 c => addHomInner m1 c chars) m

/-- The first loop of parse_first_csv over the row's characters: record
pronunciations[char] = pronunciation and pron_to_chars[pronunciation].add(char).
The loop body touches the two tables independently, so it is rendered as
one pure fold per table. -/
def updatePronTables (st : ParserState) (characters : List String) (pronunciation : String) : ParserState :=
  { st with
    pronunciations := characters.foldl (fun m c => aset m c pronunciation) st.pronunciations,
    pron_to_chars := characters.foldl (fun m c => msetAdd m pronunciation c) st.pron_to_chars }

/-- The per-word body of parse_first_csv: keep the row characters that
occur inside the word; skip the word when none does; mark it seen;
create its record (row pronunciation, those characters, the full row
character list) or merge new characters into the existing record,
backfilling an empty pronunciation; finally add the word to
char_to_words for each kept character. -/
def processWord (s : ParserState) (word pronunciation : String) (characters : List String) : ParserState :=
  let word_chars := characters.filter (fun c => substrOf c word)
  if word_chars.isEmpty then s
  else
    let s1 := if hasStr s.seen_words word then s else { s with seen_words := s.seen_words ++ [word] }
    let s2 :=
      match alookup s1.words_data word with
      | none =>
        { s1 with words_data := s1.words_data ++ [(word, (⟨pronunciation, word_chars, characters, none⟩ : WordData))] }
      | some wd =>
        let newChars := wd.characters ++ word_chars.filter (fun c => !(hasStr wd.characters c))
        let newPron := if wd.pronunciation = "" then pronunciation else wd.pronunciation
        { s1 with words_data := aset s1.words_data word ⟨newPron, newChars, wd.all_characters, wd.translations⟩ }
    { s2 with char_to_words := word_chars.foldl (fun m c => msetAdd m c word) s2.char_to_words }

/-- The word loops of parse_first_csv: over word-group cells, then over
the words of each cell. -/
def processWordGroups (st : ParserState) (groups : List String) (pronunciation : String) (characters : List String) : ParserState :=
  groups.foldl (fun s ws => (splitWords ws).foldl (fun s1 w => processWord s1 w pronunciation characters) s) st

/-- CSVParser.parse_first_csv, one row: skip rows with fewer than 2
columns or an empty stripped pronunciation; record the character
pronunciations; record homophones when the row lists at least two
characters; then process the word groups. -/
def parseFirstRow (st : ParserState) (row : List String) : ParserState :=
  if row.length < 2 then st
  else
    let pronunciation := strip (row.getD 1 "")
    if pronunciation = "" then st
    else
      let characters := rowChars row
      let st1 :=
        if characters.length > 0 then
          let stA := updatePronTables st characters pronunciation
          if characters.length > 1 then
            { stA with char_homophones := addHomAll stA.char_homophones characters }
          else stA
        else st
      processWordGroups st1 (rowWordGroups row) pronunciation characters

/-- CSVParser.parse_second_csv, one row: skip rows with fewer than 3
columns, an empty stripped word, or an empty stripped translation blob;
parse the translations; create the word (pronunciation, list(word)
characters, empty all_characters) or overwrite its pronunciation; set
its translations; then, per character of the word, record its
pronunciation only when unseen, and always extend pron_to_chars and
char_to_words. The character loop touches three tables that never read
each other, so it is rendered as one pure fold per table. -/
def parseSecondRow (st : ParserState) (row : List String) : ParserState :=
  if row.length < 3 then st
  else
    let word := strip (row.getD 0 "")
    let pronunciation := strip (row.getD 1 "")
    let translation_str := strip (row.getD 2 "")
    if word = "" ∨ translation_str = "" then st
    else
      let translations := parseTranslations translation_str
      let st1 :=
        match alookup st.words_data word with
        | none =>
          { st with words_data := st.words_data ++ [(word, (⟨pronunciation, strChars word, [], none⟩ : WordData))] }
        | some wd =>
          { st with words_data := aset st.words_data word ⟨pronunciation, wd.characters, wd.all_characters, wd.translations⟩ }
      let st2 :=
        match alookup st1.words_data word with
        | none => st1
        | some wd =>
          { st1 with words_data := aset st1.words_data word ⟨wd.pronunciation, wd.characters, wd.all_characters, some translations⟩ }
      { st2 with
        pronunciations :=
          (strChars word).foldl
            (fun m ch => match alookup m ch with | none => aset m ch pronunciation | some _ => m)
            st2.pronunciations,
        pron_to_chars := (strChars word).foldl (fun m ch => msetAdd m pronunciation ch) st2.pron_to_chars,
        char_to_words := (strChars word).foldl (fun m ch => msetAdd m ch word) st2.char_to_words }

/-- CSVParser.parse_first_csv over a whole file of rows. -/
def runFirstRows (rows : List (List String)) : ParserState :=
  rows.foldl parseFirstRow initState

/-- An ingestion event: one row fed to either parse_first_csv (A) or
parse_second_csv (B). -/
inductive SrcRow where
  | A (row : List String)
  | B (row : List String)
deriving DecidableEq

/-- Apply one ingestion event. -/
def stepRow (st : ParserState) : SrcRow → ParserState
  | .A row => parseFirstRow st row
  | .B row => parseSecondRow st row

/-- Run an arbitrary interleaving of ingestion rows from a fresh parser. -/
def runRows (evs : List SrcRow) : ParserState :=
  evs.foldl stepRow initState

/-- The record returned by CSVParser.get_char_analysis. -/
structure CharAnalysis where
  words : List String
  chars_with_same_pronunciation : List String
deriving DecidableEq

/-- CSVParser.get_char_analysis: the words containing the character and
the stored same-row homophones. It takes no word argument. -/
def getCharAnalysis (st : ParserState) (char : String) : CharAnalysis :=
  { words := msetGet st.char_to_words char,
    chars_with_same_pronunciation := msetGet st.char_homophones char }

/-- Modelled from the spec: the homophone set claimed for the
character-analysis query. The word-scoped table char_pronunciation and
the multi-valued char_to_pron table are absent from the draft in src,
whose pronunciations table records a single pronunciation per
character, so the claimed union over every attested pronunciation
degenerates to pron_to_chars at that single recorded pronunciation,
minus the character itself. -/
def claimedHomophones (st : ParserState) (c : String) : List String :=
  match alookup st.pronunciations c with
  | none => []
  | some p => (msetGet st.pron_to_chars p).filter (fun x => !(x = c : Bool))

/-- The one-directional pronunciation coupling that the code does maintain:
every character whose recorded pronunciation is P is a member of
pron_to_chars at P. -/
def PronInv (st : ParserState) : Prop :=
  ∀ C P, alookup st.pronunciations C = some P → C ∈ msetGet st.pron_to_chars P

/-- The stored homophone relation is symmetric and irreflexive. -/
def HomInv (st : ParserState) : Prop :=
  ∀ a b, b ∈ msetGet st.char_homophones a → a ∈ msetGet st.char_homophones b ∧ b ≠ a

/-- Every stored word record carries a non-empty pronunciation string. -/
def WordsPronInv (st : ParserState) : Prop :=
  ∀ w wd, alookup st.words_data w = some wd → wd.pronunciation ≠ ""

/-- Modelled from the spec: the translation-blob algorithm exactly as the
claim words it - split the blob on bars, discard segments without a
colon, split the rest once at the first colon into category and gloss
list, split the glosses on commas, trim them, drop empty glosses, and
accumulate glosses of repeated categories. No segment is discarded for
having an empty category or an empty gloss-list part. -/
def claimTranslationAlg (blob : String) : List (String × List String) :=
  ((splitStr '|' blob).map strip).foldl
    (fun acc seg =>
      match splitOnce ':' seg.data with
      | none => acc
      | some (catL, glL) =>
        mextend acc (strip (String.mk catL)) (dropEmpty ((splitStr ',' (strip (String.mk glL))).map strip)))
    []

/-- One segment of the amended translation-blob algorithm: as the claim
words it, plus the guard the code applies - a segment whose category or
gloss-list part is empty after trimming is discarded like a colon-less
one. -/
def segParse (seg : String) : Option (String × List String) :=
  match splitOnce ':' seg.data with
  | none => none
  | some (tp, mn) =>
    let category := strip (String.mk tp)
    let meaning := strip (String.mk mn)
    if category = "" ∨ meaning = "" then none
    else some (category, dropEmpty ((splitStr ',' meaning).map strip))

/-- The amended translation-blob algorithm: keep exactly the segments
segParse accepts, in order, and accumulate their glosses per category. -/
def amendedTranslationAlg (blob : String) : List (String × List String) :=
  (((splitStr '|' blob).map strip).filterMap segParse).foldl
    (fun acc pr => mextend acc pr.1 pr.2) []

/-! ### Basic lemmas about the container operations -/

theorem hasStr_iff (x : String) : ∀ l : List String, hasStr l x = true ↔ x ∈ l := by
  intro l
  induction l with
  | nil => simp [hasStr]
  | cons y t ih =>
    by_cases h : y = x
    · subst h; simp [hasStr]
    · simp only [hasStr, if_neg h, ih, List.mem_cons]
      constructor
      · intro hm; exact Or.inr hm
      · rintro (h1 | h1)
        · exact absurd h1.symm h
        · exact h1

theorem mem_listAdd (l : List String) (v x : String) :
    x ∈ listAdd l v ↔ x ∈ l ∨ x = v := by
  unfold listAdd
  by_cases h : hasStr l v = true
  · rw [if_pos h]
    constructor
    · exact fun hm => Or.inl hm
    · rintro (hm | rfl)
      · exact hm
      · exact (hasStr_iff x l).mp h
  · rw [if_neg h]
    simp [List.mem_append]

theorem alookup_aset_self {α : Type} (m : List (String × α)) (k : String) (v : α) :
    alookup (aset m k v) k = some v := by
  induction m with
  | nil => simp [aset, alookup]
  | cons p rest ih =>
    obtain ⟨k1, v1⟩ := p
    by_cases h : k1 = k
    · simp [aset, alookup, h]
    · simp [aset, alookup, h, ih]

theorem alookup_aset_ne {α : Type} (m : List (String × α)) (k q : String) (v : α)
    (h : q ≠ k) : alookup (aset m k v) q = alookup m q := by
  have hkq : ¬ k = q := fun hh => h hh.symm
  induction m with
  | nil => simp [aset, alookup, hkq]
  | cons p rest ih =>
    obtain ⟨k1, v1⟩ := p
    by_cases h1 : k1 = k
    · subst h1
      simp [aset, alookup, hkq]
    · simp [aset, alookup, h1, ih]

theorem alookup_append {α : Type} (m m2 : List (String × α)) (q : String) :
    alookup (m ++ m2) q =
      match alookup m q with
      | some v => some v
      | none => alookup m2 q := by
  induction m with
  | nil => simp [alookup]
  | cons p rest ih =>
    obtain ⟨k1, v1⟩ := p
    by_cases h : k1 = q
    · simp [alookup, h]
    · simp [alookup, h, ih]

theorem msetGet_nil (q : String) : msetGet [] q = [] := rfl

theorem msetGet_cons (k1 : String) (l : List String) (rest : List (String × List String))
    (q : String) : msetGet ((k1, l) :: rest) q = if k1 = q then l else msetGet rest q := by
  by_cases h : k1 = q <;> simp [msetGet, alookup, h]

theorem mem_msetGet_msetAdd (m : List (String × List String)) (k v q x : String) :
    x ∈ msetGet (msetAdd m k v) q ↔ x ∈ msetGet m q ∨ (q = k ∧ x = v) := by
  induction m with
  | nil =>
    rw [show msetAdd [] k v = [(k, [v])] from rfl, msetGet_cons]
    by_cases h : k = q
    · subst h
      simp [msetGet_nil]
    · have hqk : ¬ q = k := fun hh => h hh.symm
      simp [msetGet_nil, h, hqk]
  | cons p rest ih =>
    obtain ⟨k1, l⟩ := p
    by_cases h1 : k1 = k
    · subst h1
      rw [show msetAdd ((k1, l) :: rest) k1 v = (k1, listAdd l v) :: rest from by simp [msetAdd]]
      rw [msetGet_cons, msetGet_cons]
      by_cases h2 : k1 = q
      · subst h2
        simp [mem_listAdd]
      · have hqk : ¬ q = k1 := fun hh => h2 hh.symm
        simp [h2, hqk]
    · rw [show msetAdd ((k1, l) :: rest) k v = (k1, l) :: msetAdd rest k v from by simp [msetAdd, h1]]
      rw [msetGet_cons, msetGet_cons]
      by_cases h2 : k1 = q
      · subst h2
        simp [h1]
      · simp [h2, ih]

theorem mem_msetGet_mono (m : List (String × List String)) (k v q x : String)
    (h : x ∈ msetGet m q) : x ∈ msetGet (msetAdd m k v) q :=
  (mem_msetGet_msetAdd m k v q x).mpr (Or.inl h)

/-! ### Characterizations of the table-updating folds -/

theorem alookup_foldl_aset {α : Type} (v : α) :
    ∀ (l : List String) (m0 : List (String × α)) (k : String),
      alookup (l.foldl (fun m c => aset m c v) m0) k =
        if hasStr l k then some v else alookup m0 k := by
  intro l
  induction l with
  | nil => intro m0 k; simp [hasStr]
  | cons c t ih =>
    intro m0 k
    rw [List.foldl_cons, ih]
    by_cases hck : c = k
    · subst hck
      by_cases ht : hasStr t c
      · simp [hasStr, ht]
      · simp [hasStr, ht, alookup_aset_self]
    · have hkc : k ≠ c := fun hh => hck hh.symm
      by_cases ht : hasStr t k
      · simp [hasStr, hck, ht]
      · simp [hasStr, hck, ht, alookup_aset_ne _ _ _ _ hkc]

theorem mem_msetGet_foldl_msetAdd (p : String) :
    ∀ (l : List String) (m0 : List (String × List String)) (q x : String),
      x ∈ msetGet (l.foldl (fun m c => msetAdd m p c) m0) q ↔
        x ∈ msetGet m0 q ∨ (q = p ∧ x ∈ l) := by
  intro l
  induction l with
  | nil => intro m0 q x; simp
  | cons c t ih =>
    intro m0 q x
    rw [List.foldl_cons, ih, mem_msetGet_msetAdd]
    constructor
    · rintro ((hm | ⟨rfl, rfl⟩) | ⟨rfl, hmem⟩)
      · exact Or.inl hm
      · exact Or.inr ⟨rfl, List.mem_cons_self _ _⟩
      · exact Or.inr ⟨rfl, List.mem_cons_of_mem _ hmem⟩
    · rintro (hm | ⟨rfl, hmem⟩)
      · exact Or.inl (Or.inl hm)
      · rcases List.mem_cons.mp hmem with rfl | hmem
        · exact Or.inl (Or.inr ⟨rfl, rfl⟩)
        · exact Or.inr ⟨rfl, hmem⟩

theorem alookup_foldl_condaset (p : String) :
    ∀ (l : List String) (m0 : List (String × String)) (k : String),
      alookup (l.foldl (fun m ch => match alookup m ch with | none => aset m ch p | some _ => m) m0) k =
        match alookup m0 k with
        | some w => some w
        | none => if hasStr l k then some p else none := by
  intro l
  induction l with
  | nil =>
    intro m0 k
    rw [List.foldl_nil]
    cases h : alookup m0 k <;> simp [hasStr, h]
  | cons c t ih =>
    intro m0 k
    rw [List.foldl_cons]
    by_cases hck : c = k
    · subst hck
      cases h : alookup m0 c with
      | none =>
        dsimp only
        rw [ih, alookup_aset_self]
        simp [hasStr]
      | some w =>
        dsimp only
        rw [ih, h]
    · have hkc : k ≠ c := fun hh => hck hh.symm
      cases h : alookup m0 c with
      | none =>
        dsimp only
        rw [ih, alookup_aset_ne _ _ _ _ hkc]
        cases h2 : alookup m0 k <;> simp [hasStr, hck, h2]
      | some w =>
        dsimp only
        rw [ih]
        cases h2 : alookup m0 k <;> simp [hasStr, hck, h2]

theorem mem_msetGet_addHomInner :
    ∀ (others : List String) (m : List (String × List String)) (c q x : String),
      x ∈ msetGet (addHomInner m c others) q ↔
        x ∈ msetGet m q ∨ (q = c ∧ x ∈ others ∧ x ≠ c) := by
  intro others
  induction others with
  | nil => intro m c q x; simp [addHomInner]
  | cons oc t ih =>
    intro m c q x
    unfold addHomInner at ih ⊢
    rw [List.foldl_cons]
    by_cases hocc : oc ≠ c
    · rw [if_pos hocc, ih, mem_msetGet_msetAdd]
      constructor
      · rintro ((hm | ⟨rfl, rfl⟩) | ⟨rfl, hmem, hne⟩)
        · exact Or.inl hm
        · exact Or.inr ⟨rfl, List.mem_cons_self _ _, hocc⟩
        · exact Or.inr ⟨rfl, List.mem_cons_of_mem _ hmem, hne⟩
      · rintro (hm | ⟨rfl, hmem, hne⟩)
        · exact Or.inl (Or.inl hm)
        · rcases List.mem_cons.mp hmem with rfl | hmem
          · exact Or.inl (Or.inr ⟨rfl, rfl⟩)
          · exact Or.inr ⟨rfl, hmem, hne⟩
    · rw [if_neg hocc, ih]
      have hoc : oc = c := not_not.mp (fun hh => hocc hh)
      subst hoc
      constructor
      · rintro (hm | ⟨rfl, hmem, hne⟩)
        · exact Or.inl hm
        · exact Or.inr ⟨rfl, List.mem_cons_of_mem _ hmem, hne⟩
      · rintro (hm | ⟨rfl, hmem, hne⟩)
        · exact Or.inl hm
        · rcases List.mem_cons.mp hmem with rfl | hmem
          · exact absurd rfl hne
          · exact Or.inr ⟨rfl, hmem, hne⟩

theorem mem_msetGet_addHomAll_aux (chars : List String) :
    ∀ (cs : List String) (m : List (String × List String)) (q x : String),
      x ∈ msetGet (cs.foldl (fun m1 c => addHomInner m1 c chars) m) q ↔
        x ∈ msetGet m q ∨ (q ∈ cs ∧ x ∈ chars ∧ x ≠ q) := by
  intro cs
  induction cs with
  | nil => intro m q x; simp
  | cons c t ih =>
    intro m q x
    rw [List.foldl_cons, ih, mem_msetGet_addHomInner]
    constructor
    · rintro ((hm | ⟨rfl, hmem, hne⟩) | ⟨hq, hmem, hne⟩)
      · exact Or.inl hm
      · exact Or.inr ⟨List.mem_cons_self _ _, hmem, hne⟩
      · exact Or.inr ⟨List.mem_cons_of_mem _ hq, hmem, hne⟩
    · rintro (hm | ⟨hq, hmem, hne⟩)
      · exact Or.inl (Or.inl hm)
      · rcases List.mem_cons.mp hq with rfl | hq
        · exact Or.inl (Or.inr ⟨rfl, hmem, hne⟩)
        · exact Or.inr ⟨hq, hmem, hne⟩

theorem mem_msetGet_addHomAll (chars : List String) (m : List (String × List String))
    (q x : String) :
    x ∈ msetGet (addHomAll m chars) q ↔
      x ∈ msetGet m q ∨ (q ∈ chars ∧ x ∈ chars ∧ x ≠ q) :=
  mem_msetGet_addHomAll_aux chars chars m q x

/-! ### Frame lemmas: which state fields each operation leaves alone -/

theorem processWord_frame (s : ParserState) (word pronunciation : String)
    (characters : List String) :
    (processWord s word pronunciation characters).pronunciations = s.pronunciations ∧
    (processWord s word pronunciation characters).pron_to_chars = s.pron_to_chars ∧
    (processWord s word pronunciation characters).char_homophones = s.char_homophones := by
  simp only [processWord]
  split
  · exact ⟨rfl, rfl, rfl⟩
  · split <;> split <;> exact ⟨rfl, rfl, rfl⟩

theorem foldl_processWord_frame (pronunciation : String) (characters : List String) :
    ∀ (ws : List String) (s : ParserState),
      ((ws.foldl (fun s1 w => processWord s1 w pronunciation characters) s).pronunciations = s.pronunciations ∧
       (ws.foldl (fun s1 w => processWord s1 w pronunciation characters) s).pron_to_chars = s.pron_to_chars ∧
       (ws.foldl (fun s1 w => processWord s1 w pronunciation characters) s).char_homophones = s.char_homophones) := by
  intro ws
  induction ws with
  | nil => intro s; exact ⟨rfl, rfl, rfl⟩
  | cons w t ih =>
    intro s
    rw [List.foldl_cons]
    obtain ⟨h1, h2, h3⟩ := ih (processWord s w pronunciation characters)
    obtain ⟨g1, g2, g3⟩ := processWord_frame s w pronunciation characters
    exact ⟨h1.trans g1, h2.trans g2, h3.trans g3⟩

theorem processWordGroups_frame (st : ParserState) (groups : List String)
    (pronunciation : String) (characters : List String) :
    (processWordGroups st groups pronunciation characters).pronunciations = st.pronunciations ∧
    (processWordGroups st groups pronunciation characters).pron_to_chars = st.pron_to_chars ∧
    (processWordGroups st groups pronunciation characters).char_homophones = st.char_homophones := by
  unfold processWordGroups
  induction groups generalizing st with
  | nil => exact ⟨rfl, rfl, rfl⟩
  | cons g t ih =>
    rw [List.foldl_cons]
    obtain ⟨h1, h2, h3⟩ := ih ((splitWords g).foldl (fun s1 w => processWord s1 w pronunciation characters) st)
    obtain ⟨g1, g2, g3⟩ := foldl_processWord_frame pronunciation characters (splitWords g) st
    exact ⟨h1.trans g1, h2.trans g2, h3.trans g3⟩

theorem processWord_seen_words_data (s : ParserState) (word : String) :
    (if hasStr s.seen_words word then s else { s with seen_words := s.seen_words ++ [word] }).words_data
      = s.words_data := by
  split <;> rfl

/-- Full characterization of words_data after one processWord call. -/
theorem alookup_processWord (s : ParserState) (word pronunciation : String)
    (characters : List String) (q : String) :
    alookup (processWord s word pronunciation characters).words_data q =
      if _h : q = word then
        (match alookup s.words_data word with
         | none =>
           if (characters.filter (fun c => substrOf c word)).isEmpty then none
           else some (⟨pronunciation, characters.filter (fun c => substrOf c word), characters, none⟩ : WordData)
         | some wd =>
           if (characters.filter (fun c => substrOf c word)).isEmpty then some wd
           else some (⟨if wd.pronunciation = "" then pronunciation else wd.pronunciation,
                       wd.characters ++ (characters.filter (fun c => substrOf c word)).filter (fun c => !(hasStr wd.characters c)),
                       wd.all_characters, wd.translations⟩ : WordData))
      else alookup s.words_data q := by
  simp only [processWord]
  by_cases hempty : (characters.filter (fun c => substrOf c word)).isEmpty
  · rw [if_pos hempty]
    by_cases hq : q = word
    · subst hq
      rw [dif_pos rfl]
      cases h : alookup s.words_data q <;> simp [hempty, h]
    · rw [dif_neg hq]
  · rw [if_neg hempty]
    have hsd := processWord_seen_words_data s word
    by_cases hq : q = word
    · subst hq
      rw [dif_pos rfl]
      cases h : alookup s.words_data q with
      | none =>
        simp only [hsd, h, hempty, if_false]
        rw [alookup_append, h]
        simp [alookup]
      | some wd =>
        simp only [hsd, h, hempty, if_false]
        rw [alookup_aset_self]
        simp
    · rw [dif_neg hq]
      cases h : alookup s.words_data word with
      | none =>
        simp only [hsd, h]
        rw [alookup_append]
        cases h2 : alookup s.words_data q with
        | none =>
          have hwq : ¬ word = q := fun hh => hq hh.symm
          simp [alookup, hwq]
        | some wd2 => rfl
      | some wd =>
        simp only [hsd, h]
        rw [alookup_aset_ne _ _ _ _ hq]

theorem parseSecondRow_char_homophones (st : ParserState) (row : List String) :
    (parseSecondRow st row).char_homophones = st.char_homophones := by
  simp only [parseSecondRow]
  split
  · rfl
  · split
    · rfl
    · split <;> split <;> rfl

theorem parseSecondRow_lookup_self (st : ParserState) (w p t : String)
    (hw : ¬ strip w = "") (ht : ¬ strip t = "") :
    ∃ wd : WordData,
      alookup (parseSecondRow st [w, p, t]).words_data (strip w) = some wd ∧
      wd.pronunciation = strip p ∧
      wd.translations = some (parseTranslations (strip t)) := by
  simp only [parseSecondRow]
  rw [if_neg (by simp : ¬ ([w, p, t] : List String).length < 3)]
  rw [show ([w, p, t] : List String).getD 0 "" = w from rfl]
  rw [show ([w, p, t] : List String).getD 1 "" = p from rfl]
  rw [show ([w, p, t] : List String).getD 2 "" = t from rfl]
  rw [if_neg (not_or.mpr ⟨hw, ht⟩)]
  cases h : alookup st.words_data (strip w) with
  | none =>
    dsimp only
    rw [show (alookup (st.words_data ++ [(strip w, (⟨strip p, strChars (strip w), [], none⟩ : WordData))]) (strip w))
        = some (⟨strip p, strChars (strip w), [], none⟩ : WordData) from by
      rw [alookup_append, h]; simp [alookup]]
    refine ⟨⟨strip p, strChars (strip w), [], some (parseTranslations (strip t))⟩, ?_, rfl, rfl⟩
    exact alookup_aset_self _ _ _
  | some wd =>
    dsimp only
    rw [show (alookup (aset st.words_data (strip w) (⟨strip p, wd.characters, wd.all_characters, wd.translations⟩ : WordData)) (strip w))
        = some (⟨strip p, wd.characters, wd.all_characters, wd.translations⟩ : WordData) from alookup_aset_self _ _ _]
    refine ⟨⟨strip p, wd.characters, wd.all_characters, some (parseTranslations (strip t))⟩, ?_, rfl, rfl⟩
    exact alookup_aset_self _ _ _

/-! ### The pronunciation coupling invariant -/

theorem pronInv_of_eq (st st' : ParserState) (e1 : st'.pronunciations = st.pronunciations)
    (e2 : st'.pron_to_chars = st.pron_to_chars) (h : PronInv st) : PronInv st' := by
  intro C P hl
  rw [e1] at hl
  rw [e2]
  exact h C P hl

theorem pronInv_initState : PronInv initState := by
  intro C P h
  simp [initState, alookup] at h

theorem pronInv_updatePronTables (st : ParserState) (chars : List String) (p : String)
    (h : PronInv st) : PronInv (updatePronTables st chars p) := by
  intro C P hl
  unfold updatePronTables at hl ⊢
  dsimp at hl ⊢
  rw [alookup_foldl_aset] at hl
  by_cases hc : hasStr chars C
  · rw [if_pos hc] at hl
    injection hl with hP
    subst hP
    exact (mem_msetGet_foldl_msetAdd p chars st.pron_to_chars p C).mpr
      (Or.inr ⟨rfl, (hasStr_iff C chars).mp hc⟩)
  · rw [if_neg hc] at hl
    exact (mem_msetGet_foldl_msetAdd p chars st.pron_to_chars P C).mpr (Or.inl (h C P hl))

theorem pronInv_tables (chars : List String) (p : String)
    (pron0 : List (String × String)) (ptc0 : List (String × List String))
    (h : ∀ C P, alookup pron0 C = some P → C ∈ msetGet ptc0 P) :
    ∀ C P,
      alookup (chars.foldl (fun m ch => match alookup m ch with | none => aset m ch p | some _ => m) pron0) C = some P →
      C ∈ msetGet (chars.foldl (fun m ch => msetAdd m p ch) ptc0) P := by
  intro C P hl
  rw [alookup_foldl_condaset] at hl
  cases h0 : alookup pron0 C with
  | some w0 =>
    rw [h0] at hl
    dsimp at hl
    injection hl with hP
    subst hP
    exact (mem_msetGet_foldl_msetAdd p chars ptc0 w0 C).mpr (Or.inl (h C w0 h0))
  | none =>
    rw [h0] at hl
    dsimp at hl
    by_cases hc : hasStr chars C
    · rw [if_pos hc] at hl
      injection hl with hP
      subst hP
      exact (mem_msetGet_foldl_msetAdd p chars ptc0 p C).mpr
        (Or.inr ⟨rfl, (hasStr_iff C chars).mp hc⟩)
    · rw [if_neg hc] at hl
      exact absurd hl (by simp)

theorem pronInv_parseFirstRow (st : ParserState) (row : List String)
    (h : PronInv st) : PronInv (parseFirstRow st row) := by
  simp only [parseFirstRow]
  split
  · exact h
  · split
    · exact h
    · have hmain : PronInv (if (rowChars row).length > 0 then
          (let stA := updatePronTables st (rowChars row) (strip (row.getD 1 ""));
           if (rowChars row).length > 1 then
             { stA with char_homophones := addHomAll stA.char_homophones (rowChars row) }
           else stA)
        else st) := by
        split
        · dsimp only
          split
          · exact pronInv_of_eq _ _ rfl rfl (pronInv_updatePronTables st _ _ h)
          · exact pronInv_updatePronTables st _ _ h
        · exact h
      obtain ⟨e1, e2, _⟩ := processWordGroups_frame _ (rowWordGroups row) (strip (row.getD 1 "")) (rowChars row)
      exact pronInv_of_eq _ _ e1 e2 hmain

theorem pronInv_parseSecondRow (st : ParserState) (row : List String)
    (h : PronInv st) : PronInv (parseSecondRow st row) := by
  simp only [parseSecondRow]
  split
  · exact h
  · split
    · exact h
    · split <;> split <;>
      · intro C P hl
        exact pronInv_tables _ _ _ _ (fun C1 P1 hl1 => h C1 P1 hl1) C P hl

theorem pronInv_runRows_aux : ∀ (evs : List SrcRow) (st : ParserState),
    PronInv st → PronInv (evs.foldl stepRow st) := by
  intro evs
  induction evs with
  | nil => intro st h; exact h
  | cons e t ih =>
    intro st h
    rw [List.foldl_cons]
    apply ih
    cases e with
    | A row => exact pronInv_parseFirstRow st row h
    | B row => exact pronInv_parseSecondRow st row h

/-! ### The homophone symmetry and irreflexivity invariant -/

theorem homInv_of_eq (st st' : ParserState)
    (e : st'.char_homophones = st.char_homophones) (h : HomInv st) : HomInv st' := by
  intro a b hb
  rw [e] at hb ⊢
  exact h a b hb

theorem homInv_initState : HomInv initState := by
  intro a b hb
  simp [initState, msetGet, alookup] at hb

theorem homInv_addHomAll (st : ParserState) (hom : List (String × List String))
    (chars : List String) (e : st.char_homophones = hom) (h : HomInv st) :
    ∀ a b, b ∈ msetGet (addHomAll hom chars) a →
      a ∈ msetGet (addHomAll hom chars) b ∧ b ≠ a := by
  intro a b hb
  rcases (mem_msetGet_addHomAll chars hom a b).mp hb with hold | ⟨ha, hbmem, hne⟩
  · rw [← e] at hold
    obtain ⟨hmem, hne⟩ := h a b hold
    rw [e] at hmem
    exact ⟨(mem_msetGet_addHomAll chars hom b a).mpr (Or.inl hmem), hne⟩
  · refine ⟨(mem_msetGet_addHomAll chars hom b a).mpr (Or.inr ⟨hbmem, ha, ?_⟩), hne⟩
    exact fun hh => hne hh.symm

theorem homInv_parseFirstRow (st : ParserState) (row : List String)
    (h : HomInv st) : HomInv (parseFirstRow st row) := by
  simp only [parseFirstRow]
  split
  · exact h
  · split
    · exact h
    · have hmain : HomInv (if (rowChars row).length > 0 then
          (let stA := updatePronTables st (rowChars row) (strip (row.getD 1 ""));
           if (rowChars row).length > 1 then
             { stA with char_homophones := addHomAll stA.char_homophones (rowChars row) }
           else stA)
        else st) := by
        split
        · dsimp only
          split
          · intro a b hb
            exact homInv_addHomAll st st.char_homophones (rowChars row) rfl h a b hb
          · exact homInv_of_eq st _ rfl h
        · exact h
      obtain ⟨_, _, e3⟩ := processWordGroups_frame _ (rowWordGroups row) (strip (row.getD 1 "")) (rowChars row)
      exact homInv_of_eq _ _ e3 hmain

theorem homInv_parseSecondRow (st : ParserState) (row : List String)
    (h : HomInv st) : HomInv (parseSecondRow st row) :=
  homInv_of_eq st _ (parseSecondRow_char_homophones st row) h

theorem homInv_runRows_aux : ∀ (evs : List SrcRow) (st : ParserState),
    HomInv st → HomInv (evs.foldl stepRow st) := by
  intro evs
  induction evs with
  | nil => intro st h; exact h
  | cons e t ih =>
    intro st h
    rw [List.foldl_cons]
    apply ih
    cases e with
    | A row => exact homInv_parseFirstRow st row h
    | B row => exact homInv_parseSecondRow st row h

/-! ### Word pronunciations recorded by source A are never empty -/

theorem wordsPronInv_of_eq (st st' : ParserState)
    (e : st'.words_data = st.words_data) (h : WordsPronInv st) : WordsPronInv st' := by
  intro w wd hl
  rw [e] at hl
  exact h w wd hl

theorem wordsPronInv_initState : WordsPronInv initState := by
  intro w wd hl
  simp [initState, alookup] at hl

theorem wordsPronInv_processWord (s : ParserState) (word p : String) (cs : List String)
    (hp : p ≠ "") (h : WordsPronInv s) : WordsPronInv (processWord s word p cs) := by
  intro w1 wd1 hl
  rw [alookup_processWord] at hl
  by_cases hq : w1 = word
  · rw [dif_pos hq] at hl
    cases hlook : alookup s.words_data word with
    | none =>
      rw [hlook] at hl
      dsimp at hl
      by_cases hempty : (cs.filter (fun c => substrOf c word)).isEmpty
      · rw [if_pos hempty] at hl
        exact absurd hl (by simp)
      · rw [if_neg hempty] at hl
        injection hl with hwd
        subst hwd
        exact hp
    | some wd =>
      rw [hlook] at hl
      dsimp at hl
      have hwdp : wd.pronunciation ≠ "" := h word wd hlook
      by_cases hempty : (cs.filter (fun c => substrOf c word)).isEmpty
      · rw [if_pos hempty] at hl
        injection hl with hwd
        subst hwd
        exact hwdp
      · rw [if_neg hempty] at hl
        injection hl with hwd
        subst hwd
        dsimp
        rw [if_neg hwdp]
        exact hwdp
  · rw [dif_neg hq] at hl
    exact h w1 wd1 hl

theorem wordsPronInv_processWordGroups (st : ParserState) (groups : List String)
    (p : String) (cs : List String) (hp : p ≠ "") (h : WordsPronInv st) :
    WordsPronInv (processWordGroups st groups p cs) := by
  unfold processWordGroups
  induction groups generalizing st with
  | nil => exact h
  | cons g t ih =>
    rw [List.foldl_cons]
    apply ih
    have haux : ∀ (ws : List String) (s : ParserState), WordsPronInv s →
        WordsPronInv (ws.foldl (fun s1 w => processWord s1 w p cs) s) := by
      intro ws
      induction ws with
      | nil => intro s hs; exact hs
      | cons w twords ihw =>
        intro s hs
        rw [List.foldl_cons]
        exact ihw _ (wordsPronInv_processWord s w p cs hp hs)
    exact haux (splitWords g) st h

theorem wordsPronInv_parseFirstRow (st : ParserState) (row : List String)
    (h : WordsPronInv st) : WordsPronInv (parseFirstRow st row) := by
  simp only [parseFirstRow]
  split
  · exact h
  · split
    · exact h
    · next hpron =>
      refine wordsPronInv_processWordGroups _ _ _ _ hpron ?_
      split
      · split
        · exact wordsPronInv_of_eq st _ rfl h
        · exact wordsPronInv_of_eq st _ rfl h
      · exact h

theorem wordsPronInv_runFirstRows_aux : ∀ (rows : List (List String)) (st : ParserState),
    WordsPronInv st → WordsPronInv (rows.foldl parseFirstRow st) := by
  intro rows
  induction rows with
  | nil => intro st h; exact h
  | cons r t ih =>
    intro st h
    rw [List.foldl_cons]
    exact ih _ (wordsPronInv_parseFirstRow st r h)

/-! ### The translation fold agrees with its filterMap presentation -/

theorem translations_fold_eq_filterMap :
    ∀ (parts : List String) (acc : List (String × List String)),
      parts.foldl
        (fun tr part =>
          match splitOnce ':' part.data with
          | none => tr
          | some (tp, mn) =>
            let word_type := strip (String.mk tp)
            let meaning := strip (String.mk mn)
            if word_type = "" ∨ meaning = "" then tr
            else
              let meanings := dropEmpty ((splitStr ',' meaning).map strip)
              mextend tr word_type meanings)
        acc =
      (parts.filterMap segParse).foldl (fun a pr => mextend a pr.1 pr.2) acc := by
  intro parts
  induction parts with
  | nil => intro acc; rfl
  | cons part t ih =>
    intro acc
    rw [List.foldl_cons, List.filterMap_cons]
    cases hsplit : splitOnce ':' part.data with
    | none =>
      have hseg : segParse part = none := by
        unfold segParse
        rw [hsplit]
      rw [hseg]
      dsimp only
      exact ih acc
    | some pr =>
      obtain ⟨tp, mn⟩ := pr
      by_cases hguard : strip (String.mk tp) = "" ∨ strip (String.mk mn) = ""
      · have hseg : segParse part = none := by
          unfold segParse
          rw [hsplit]
          dsimp only
          rw [if_pos hguard]
        rw [hseg]
        dsimp only
        rw [if_pos hguard]
        exact ih acc
      · have hseg : segParse part =
            some (strip (String.mk tp), dropEmpty ((splitStr ',' (strip (String.mk mn))).map strip)) := by
          unfold segParse
          rw [hsplit]
          dsimp only
          rw [if_neg hguard]
        rw [hseg]
        dsimp only
        rw [if_neg hguard]
        rw [List.foldl_cons]
        exact ih _

/-! ### The claims -/

/-- Claim C1 (code-bug evidence): get_char_analysis accepts no word
argument and ignores pron_to_chars entirely. After the two source-A rows
["A","li3","李"] and ["B","li3","理"] - both attesting pronunciation li3 -
the code's homophone answer for 李 is empty (char_homophones only links
characters listed together in one row), while the computation the claim
describes (pron_to_chars at the attested pronunciation of 李, minus 李)
yields 理. -/
theorem c1_code_divergence :
    (getCharAnalysis (parseFirstRow (parseFirstRow initState ["A", "li3", "李"]) ["B", "li3", "理"]) "李").chars_with_same_pronunciation = [] ∧
    claimedHomophones (parseFirstRow (parseFirstRow initState ["A", "li3", "李"]) ["B", "li3", "理"]) "李" = ["理"] := by
  exact ⟨by decide, by decide⟩

/-- Claim C2 counterexample: the symmetry biconditional fails. After two
source-A rows giving 行 the pronunciations xing2 and then hang2, the
character 行 is still a member of pron_to_chars at xing2, but the
character-to-pronunciation table records hang2 (the code keeps only the
last pronunciation per character). -/
theorem c2_counterexample :
    ¬ (("行" ∈ msetGet (runRows [SrcRow.A ["A", "xing2", "行"], SrcRow.A ["B", "hang2", "行"]]).pron_to_chars "xing2") ↔
       alookup (runRows [SrcRow.A ["A", "xing2", "行"], SrcRow.A ["B", "hang2", "行"]]).pronunciations "行" = some "xing2") := by
  decide

/-- Claim C2 (amended): after any ingestion sequence only the forward
direction holds - if the character-to-pronunciation table records
pronunciation P for character C then C is a member of pron_to_chars at
P; the converse can fail once a character's pronunciation has been
overwritten. -/
theorem c2_amended : ∀ (evs : List SrcRow) (C P : String),
    alookup (runRows evs).pronunciations C = some P →
    C ∈ msetGet (runRows evs).pron_to_chars P := by
  intro evs C P h
  exact pronInv_runRows_aux evs initState pronInv_initState C P h

/-- Witness for the amended claim C2 at a concrete ingestion. -/
theorem c2_amended_witness :
    alookup (runRows [SrcRow.A ["x", "a", "吧"]]).pronunciations "吧" = some "a" ∧
    "吧" ∈ msetGet (runRows [SrcRow.A ["x", "a", "吧"]]).pron_to_chars "a" :=
  ⟨by decide, c2_amended [SrcRow.A ["x", "a", "吧"]] "吧" "a" (by decide)⟩

/-- Claim C3 counterexample: the source-A row ["A","wo3","我",...,"我们"]
creates the new word 我们 with characters ["我"] - the row's
character-column tokens contained in the word - not the literal
decomposition ["我","们"], and with pronunciation "wo3", not null. -/
theorem c3_counterexample :
    alookup (parseFirstRow initState ["A", "wo3", "我", "", "", "", "", "", "", "", "", "我们"]).words_data "我们"
      = some (⟨"wo3", ["我"], ["我"], none⟩ : WordData) ∧
    ¬ ((["我"] : List String) = strChars "我们") ∧
    ¬ ((⟨"wo3", ["我"], ["我"], none⟩ : WordData).pronunciation = "") := by
  exact ⟨by decide, by decide, by decide⟩

/-- Claim C3 (amended): a word from the word-group columns is indexed
only when at least one of the row's character-column tokens occurs in it
as a substring; on first sight it is created with the row's
pronunciation and with characters equal to exactly those row tokens, in
row order; a later row with the word already present appends its
not-yet-present occurring row tokens and leaves the rest of the record
alone (backfilling the pronunciation only if it was empty). -/
theorem c3_amended : ∀ (s : ParserState) (word p : String) (cs : List String),
    (alookup s.words_data word = none →
      alookup (processWord s word p cs).words_data word =
        (if (cs.filter (fun c => substrOf c word)).isEmpty then none
         else some (⟨p, cs.filter (fun c => substrOf c word), cs, none⟩ : WordData))) ∧
    (∀ wd : WordData, alookup s.words_data word = some wd →
      ¬ (cs.filter (fun c => substrOf c word)).isEmpty = true →
      alookup (processWord s word p cs).words_data word =
        some (⟨if wd.pronunciation = "" then p else wd.pronunciation,
               wd.characters ++ (cs.filter (fun c => substrOf c word)).filter (fun c => !(hasStr wd.characters c)),
               wd.all_characters, wd.translations⟩ : WordData)) := by
  intro s word p cs
  constructor
  · intro hnone
    rw [alookup_processWord, dif_pos rfl, hnone]
  · intro wd hsome hne
    rw [alookup_processWord, dif_pos rfl, hsome]
    dsimp only
    rw [if_neg hne]

/-- Witness for the amended claim C3 at a concrete creation. -/
theorem c3_amended_witness :
    alookup initState.words_data "我们" = none ∧
    alookup (processWord initState "我们" "wo3" ["我"]).words_data "我们" =
      (if ((["我"] : List String).filter (fun c => substrOf c "我们")).isEmpty then none
       else some (⟨"wo3", (["我"] : List String).filter (fun c => substrOf c "我们"), ["我"], none⟩ : WordData)) :=
  ⟨by decide, (c3_amended initState "我们" "wo3" ["我"]).1 (by decide)⟩

/-- Claim C4 counterexample: one source-B row does modify pron_to_chars
(and the pronunciation and char_to_words tables): parsing the row
["我","wo3","n: me"] from a fresh parser changes pron_to_chars. -/
theorem c4_counterexample :
    ¬ ((parseSecondRow initState ["我", "wo3", "n: me"]).pron_to_chars = initState.pron_to_chars) := by
  decide

/-- Claim C4 (amended): parse_second_csv does update the pronunciation
table, pron_to_chars and char_to_words, but it never touches the
homophone table char_homophones - homophone derivation is exclusively a
product of parse_first_csv. -/
theorem c4_amended : ∀ (st : ParserState) (row : List String),
    (parseSecondRow st row).char_homophones = st.char_homophones := by
  intro st row
  exact parseSecondRow_char_homophones st row

/-- Claim C5 counterexample: a source-A row whose character column holds
the comma token records the comma as a character, both in the
pronunciation table and in pron_to_chars - no punctuation filter exists
in the code. -/
theorem c5_counterexample :
    alookup (parseFirstRow initState ["x", "a", ","]).pronunciations "," = some "a" ∧
    "," ∈ msetGet (parseFirstRow initState ["x", "a", ","]).pron_to_chars "a" := by
  exact ⟨by decide, by decide⟩

/-- Claim C5 (amended): no punctuation exclusion is applied - every
non-empty stripped token of the character columns, punctuation included,
is recorded with the row's pronunciation in the pronunciation table and
in pron_to_chars. -/
theorem c5_amended : ∀ (st : ParserState) (row : List String) (tok : String),
    ¬ strip (row.getD 1 "") = "" → tok ∈ rowChars row →
    alookup (parseFirstRow st row).pronunciations tok = some (strip (row.getD 1 "")) ∧
    tok ∈ msetGet (parseFirstRow st row).pron_to_chars (strip (row.getD 1 "")) := by
  intro st row tok hp htok
  have hlen : ¬ row.length < 2 := by
    intro hlt
    have hdrop : row.drop 2 = [] := List.drop_eq_nil_of_le (by omega)
    rw [rowChars, hdrop] at htok
    simp [dropEmpty] at htok
  have hchars : (rowChars row).length > 0 := by
    cases hcc : rowChars row with
    | nil => rw [hcc] at htok; simp at htok
    | cons a t => simp
  simp only [parseFirstRow]
  rw [if_neg hlen, if_neg hp, if_pos hchars]
  by_cases h1 : (rowChars row).length > 1
  · rw [if_pos h1]
    obtain ⟨e1, e2, _⟩ := processWordGroups_frame
      { updatePronTables st (rowChars row) (strip (row.getD 1 "")) with
        char_homophones := addHomAll (updatePronTables st (rowChars row) (strip (row.getD 1 ""))).char_homophones (rowChars row) }
      (rowWordGroups row) (strip (row.getD 1 "")) (rowChars row)
    rw [e1, e2]
    constructor
    · show alookup ((rowChars row).foldl (fun m c => aset m c (strip (row.getD 1 ""))) st.pronunciations) tok = _
      rw [alookup_foldl_aset, if_pos ((hasStr_iff tok (rowChars row)).mpr htok)]
    · show tok ∈ msetGet ((rowChars row).foldl (fun m c => msetAdd m (strip (row.getD 1 "")) c) st.pron_to_chars) _
      exact (mem_msetGet_foldl_msetAdd _ _ _ _ _).mpr (Or.inr ⟨rfl, htok⟩)
  · rw [if_neg h1]
    obtain ⟨e1, e2, _⟩ := processWordGroups_frame
      (updatePronTables st (rowChars row) (strip (row.getD 1 "")))
      (rowWordGroups row) (strip (row.getD 1 "")) (rowChars row)
    rw [e1, e2]
    constructor
    · show alookup ((rowChars row).foldl (fun m c => aset m c (strip (row.getD 1 ""))) st.pronunciations) tok = _
      rw [alookup_foldl_aset, if_pos ((hasStr_iff tok (rowChars row)).mpr htok)]
    · show tok ∈ msetGet ((rowChars row).foldl (fun m c => msetAdd m (strip (row.getD 1 "")) c) st.pron_to_chars) _
      exact (mem_msetGet_foldl_msetAdd _ _ _ _ _).mpr (Or.inr ⟨rfl, htok⟩)

/-- Witness for the amended claim C5: the semicolon token is retained. -/
theorem c5_amended_witness :
    ¬ strip ((["y", "pa", ";"] : List String).getD 1 "") = "" ∧
    (alookup (parseFirstRow initState ["y", "pa", ";"]).pronunciations ";" = some (strip ((["y", "pa", ";"] : List String).getD 1 "")) ∧
     ";" ∈ msetGet (parseFirstRow initState ["y", "pa", ";"]).pron_to_chars (strip ((["y", "pa", ";"] : List String).getD 1 ""))) :=
  ⟨by decide, c5_amended initState ["y", "pa", ";"] ";" (by decide) (by decide)⟩

/-- Claim C6 counterexample: after the single source-A row that creates
书本, the stored record's pronunciation is "shu1", not absent/null -
parse_first_csv does set word pronunciations. -/
theorem c6_counterexample :
    alookup (runFirstRows [["A", "shu1", "书", "", "", "", "", "", "", "", "", "书本"]]).words_data "书本"
      = some (⟨"shu1", ["书"], ["书"], none⟩ : WordData) ∧
    ¬ ((⟨"shu1", ["书"], ["书"], none⟩ : WordData).pronunciation = "") := by
  exact ⟨by decide, by decide⟩

/-- Claim C6 (amended): parse_first_csv always sets a word pronunciation:
after ingesting any list of source-A rows, every stored word record has a
non-empty pronunciation (the pronunciation of the row that created it, or
a later backfill - never empty, because row pronunciations are non-empty
by the row guard). -/
theorem c6_amended : ∀ (rows : List (List String)) (w : String) (wd : WordData),
    alookup (runFirstRows rows).words_data w = some wd → wd.pronunciation ≠ "" := by
  intro rows w wd h
  exact wordsPronInv_runFirstRows_aux rows initState wordsPronInv_initState w wd h

/-- Witness for the amended claim C6 at a concrete ingestion. -/
theorem c6_amended_witness :
    alookup (runFirstRows [["A", "ma1", "妈", "", "", "", "", "", "", "", "", "妈妈"]]).words_data "妈妈"
      = some (⟨"ma1", ["妈"], ["妈"], none⟩ : WordData) ∧
    (⟨"ma1", ["妈"], ["妈"], none⟩ : WordData).pronunciation ≠ "" :=
  ⟨by decide,
   c6_amended [["A", "ma1", "妈", "", "", "", "", "", "", "", "", "妈妈"]] "妈妈"
     ⟨"ma1", ["妈"], ["妈"], none⟩ (by decide)⟩

/-- Claim C7: source B is last-write-wins. Feeding two source-B rows
carrying the same word, the stored record's pronunciation and
translations equal the second row's (stripped) pronunciation and parsed
translation blob, whatever the parser state was before. -/
theorem c7 : ∀ (st : ParserState) (w p1 t1 p2 t2 : String),
    ¬ strip w = "" → ¬ strip t2 = "" →
    ∃ wd : WordData,
      alookup (parseSecondRow (parseSecondRow st [w, p1, t1]) [w, p2, t2]).words_data (strip w) = some wd ∧
      wd.pronunciation = strip p2 ∧
      wd.translations = some (parseTranslations (strip t2)) := by
  intro st w p1 t1 p2 t2 hw ht
  exact parseSecondRow_lookup_self (parseSecondRow st [w, p1, t1]) w p2 t2 hw ht

/-- Witness for claim C7 at two concrete source-B rows. -/
theorem c7_witness :
    ∃ wd : WordData,
      alookup (parseSecondRow (parseSecondRow initState ["我们", "wo3", "n: we"]) ["我们", "wo4", "pron: us"]).words_data (strip "我们") = some wd ∧
      wd.pronunciation = strip "wo4" ∧
      wd.translations = some (parseTranslations (strip "pron: us")) :=
  c7 initState "我们" "wo3" "n: we" "wo4" "pron: us" (by decide) (by decide)

/-- Claim C8 counterexample: on the blob ":a" the claimed algorithm keeps
the segment (it contains a colon) and produces the empty category with
gloss "a", while the code discards any segment whose category is empty
after trimming and returns the empty mapping. -/
theorem c8_counterexample :
    ¬ (parseTranslations ":a" = claimTranslationAlg ":a") := by
  decide

/-- Claim C8 (amended): the parsed mapping equals the claimed algorithm
amended with one extra discard rule - a segment whose category or whose
gloss-list part is empty after trimming is dropped exactly like a
colon-less segment; everything else (split on bars, split once at the
first colon, comma-split, trim, drop empty glosses, accumulate repeated
categories in order) is as the claim states. -/
theorem c8_amended : ∀ (blob : String),
    parseTranslations blob = amendedTranslationAlg blob := by
  intro blob
  unfold parseTranslations amendedTranslationAlg
  exact translations_fold_eq_filterMap ((splitStr '|' blob).map strip) []

/-- Claim C9: rows failing their structural precondition are skipped
atomically - the parser state is returned unchanged (hence every table is
unchanged and ingestion, a fold over rows, continues with the rest);
source A: fewer than 2 columns or empty stripped pronunciation; source B:
fewer than 3 columns, empty stripped word, or empty stripped translation
blob. The embedded functions are total, so no error is raised. -/
theorem c9 :
    (∀ (st : ParserState) (row : List String),
      row.length < 2 ∨ strip (row.getD 1 "") = "" → parseFirstRow st row = st) ∧
    (∀ (st : ParserState) (row : List String),
      row.length < 3 ∨ strip (row.getD 0 "") = "" ∨ strip (row.getD 2 "") = "" →
        parseSecondRow st row = st) := by
  constructor
  · intro st row h
    simp only [parseFirstRow]
    by_cases hlen : row.length < 2
    · rw [if_pos hlen]
    · rw [if_neg hlen]
      rcases h with h | h
      · exact absurd h hlen
      · rw [if_pos h]
  · intro st row h
    simp only [parseSecondRow]
    by_cases hlen : row.length < 3
    · rw [if_pos hlen]
    · rw [if_neg hlen]
      rcases h with h | h | h
      · exact absurd h hlen
      · rw [if_pos (Or.inl h)]
      · rw [if_pos (Or.inr h)]

/-- Witness for claim C9: a one-column source-A row and a source-B row
with a blank translation blob leave a fresh parser untouched. -/
theorem c9_witness :
    parseFirstRow initState ["onlycol"] = initState ∧
    parseSecondRow initState ["我", "p", " "] = initState :=
  ⟨c9.1 initState ["onlycol"] (Or.inl (by decide)),
   c9.2 initState ["我", "p", " "] (Or.inr (Or.inr (by decide)))⟩

/-- Claim C10: after any interleaving of source-A and source-B rows the
stored homophone relation is symmetric on distinct characters and no
character is a homophone of itself. -/
theorem c10 : ∀ (evs : List SrcRow),
    (∀ a b : String, a ≠ b →
      (b ∈ msetGet (runRows evs).char_homophones a ↔ a ∈ msetGet (runRows evs).char_homophones b)) ∧
    (∀ c : String, c ∉ msetGet (runRows evs).char_homophones c) := by
  intro evs
  have hinv : HomInv (runRows evs) := homInv_runRows_aux evs initState homInv_initState
  constructor
  · intro a b _
    constructor
    · intro hb
      exact (hinv a b hb).1
    · intro ha
      exact (hinv b a ha).1
  · intro c hc
    exact (hinv c c hc).2 rfl

/-- Witness for claim C10 at a concrete two-character row. -/
theorem c10_witness :
    ("理" ∈ msetGet (runRows [SrcRow.A ["x", "li3", "李", "理"]]).char_homophones "李" ↔
     "李" ∈ msetGet (runRows [SrcRow.A ["x", "li3", "李", "理"]]).char_homophones "理") ∧
    "李" ∉ msetGet (runRows [SrcRow.A ["x", "li3", "李", "理"]]).char_homophones "李" :=
  ⟨(c10 [SrcRow.A ["x", "li3", "李", "理"]]).1 "李" "理" (by decide),
   (c10 [SrcRow.A ["x", "li3", "李", "理"]]).2 "李"⟩

end AnkiDict
